import Mathlib

/-!
Verification of the `serde_jcs` canonicalizing JSON encoder (RFC 8785 JCS).

This file gives a shallow embedding of `src/ser.rs` (the `JcsFormatter`
event machine and its three entry points `to_string` / `to_vec` /
`to_writer`) and proves the specified properties about it.

Conventions of the embedding:
* Bytes are natural numbers (< 256 by construction); byte buffers are
  `List Nat`.  Unicode text is a `List Nat` of code points.
* The driver that feeds write events to the formatter is serde_json's
  `Serializer` with `CompactFormatter` defaults; its well-known behavior
  (structural characters, escape table, event order) is embedded in
  `serializeValue` / `fragmentEvents` and in the `CompactFormatter`
  byte outputs hard-wired into `step`.  One divergence of granularity:
  serde_json batches maximal runs of unescaped characters into a single
  `write_string_fragment` call, while `fragmentEvents` emits one fragment
  event per unescaped character; the two produce byte-identical output
  since `write_string_fragment` copies fragment bytes verbatim.
* Floating-point inputs are embedded as `FloatRepr`: the Rust
  `f32::classify` / `f64::classify` result together with the sign bit and
  the byte string that the external `ryu_js` crate (the ECMAScript
  `Number::toString` shortest round-trip renderer) produces for the value
  when it is finite.  `write_float` only inspects the category and, in
  the finite nonzero case, copies those bytes, exactly as the Rust code.
* Rust panics (the `todo!` in `write_number_str`) are embedded as the
  distinguished failure `Failure.panic`; `io::Error` values as
  `Failure.io`.
-/

/-! ## Byte-level primitives -/

/-- Lowercase hexadecimal digit, as in the `HEX` table of
`JcsFormatter::write_char_escape` (`b"0123456789abcdef"`). -/
def hexDigit (n : Nat) : Nat :=
  if n < 10 then 48 + n else 87 + n

/-- UTF-8 encoding of one Unicode code point (as `str::as_bytes` yields
for each `char` of a Rust string). -/
def utf8Char (c : Nat) : List Nat :=
  if c < 0x80 then [c]
  else if c < 0x800 then [0xC0 + c / 64, 0x80 + c % 64]
  else if c < 0x10000 then [0xE0 + c / 4096, 0x80 + c / 64 % 64, 0x80 + c % 64]
  else [0xF0 + c / 0x40000, 0x80 + c / 4096 % 64, 0x80 + c / 64 % 64, 0x80 + c % 64]

/-- UTF-8 encoding of a sequence of code points. -/
def utf8Encode : List Nat → List Nat
  | [] => []
  | c :: cs => utf8Char c ++ utf8Encode cs

/-- Decimal digits (ASCII) of a natural number, fuel-driven so that it is
kernel-computable; with fuel above the number of digits this is the usual
base-10 rendering used by `itoa` inside serde_json's `CompactFormatter`
integer writers. -/
def natDecAux : Nat → Nat → List Nat
  | 0, _ => []
  | fuel + 1, n => if n < 10 then [48 + n] else natDecAux fuel (n / 10) ++ [48 + n % 10]

/-- ASCII decimal rendering of a natural number. -/
def natDec (n : Nat) : List Nat := natDecAux (n + 1) n

/-- ASCII decimal rendering of an integer, with leading minus sign when
negative: the output of the `CompactFormatter::write_i8 .. write_u64`
family delegated to by `JcsFormatter`. -/
def intDec (n : Int) : List Nat :=
  if n < 0 then 45 :: natDec (-n).toNat else natDec n.toNat

/-- Strict lexicographic order on sequences of naturals (used both for
UTF-16 code-unit sequences and for raw byte sequences). -/
def lexLt : List Nat → List Nat → Bool
  | [], [] => false
  | [], _ :: _ => true
  | _ :: _, [] => false
  | a :: as, b :: bs => a < b || (a == b && lexLt as bs)

/-! ## Decoding a buffered key back to UTF-16 code units

The repository's `entry.rs` (declared as `mod entry` in `lib.rs` and used
as `crate::entry::Entry` in `ser.rs`) is not present under `src/`; the
definitions in this section and the `Entry` structure below are modelled
from the spec, which requires object members to be sorted "by key using
code-unit-wise comparison of the original (pre-encoding) text as UTF-16
code units — not raw encoded-byte order". -/

/-- Value of one ASCII hexadecimal digit. -/
def hexVal (c : Nat) : Nat :=
  if c < 58 then c - 48 else if c < 97 then c - 65 + 10 else c - 97 + 10

/-- UTF-16 code units of one code point (surrogate pair above U+FFFF). -/
def utf16OfCp (c : Nat) : List Nat :=
  if c < 0x10000 then [c]
  else [0xD800 + (c - 0x10000) / 0x400, 0xDC00 + (c - 0x10000) % 0x400]

/-- Character named by a short JSON escape (`\b \f \n \r \t`; `\" \\ \/`
name themselves). -/
def unescapeChar (e : Nat) : Nat :=
  if e = 98 then 8
  else if e = 102 then 12
  else if e = 110 then 10
  else if e = 114 then 13
  else if e = 116 then 9
  else e

/-- Modelled from the spec: decode the UTF-8/JSON-escaped bytes of a
buffered key back to the UTF-16 code units of the original text.  Escapes
`\uXXXX` contribute their code unit directly; other bytes are UTF-8
decoded and code points above U+FFFF contribute a surrogate pair.
Fuel-driven (one list element consumed per unit of fuel at least). -/
def keyUnitsAux : Nat → List Nat → List Nat
  | 0, _ => []
  | _ + 1, [] => []
  | fuel + 1, b :: rest =>
    if b = 92 then
      match rest with
      | 117 :: h1 :: h2 :: h3 :: h4 :: r =>
        (hexVal h1 * 4096 + hexVal h2 * 256 + hexVal h3 * 16 + hexVal h4) :: keyUnitsAux fuel r
      | e :: r => unescapeChar e :: keyUnitsAux fuel r
      | [] => []
    else if b < 0x80 then b :: keyUnitsAux fuel rest
    else if b < 0xE0 then
      match rest with
      | b2 :: r => ((b - 0xC0) * 64 + (b2 - 0x80)) :: keyUnitsAux fuel r
      | [] => []
    else if b < 0xF0 then
      match rest with
      | b2 :: b3 :: r => ((b - 0xE0) * 4096 + (b2 - 0x80) * 64 + (b3 - 0x80)) :: keyUnitsAux fuel r
      | _ => []
    else
      match rest with
      | b2 :: b3 :: b4 :: r =>
        utf16OfCp ((b - 0xF0) * 0x40000 + (b2 - 0x80) * 4096 + (b3 - 0x80) * 64 + (b4 - 0x80))
          ++ keyUnitsAux fuel r
      | _ => []

/-- Modelled from the spec: UTF-16 code units of the original text of a
finalized key buffer (the buffer holds the quoted, escaped string token,
so the surrounding quotes are stripped before decoding). -/
def decodeKey (k : List Nat) : List Nat :=
  keyUnitsAux k.length (List.dropLast (k.drop 1))

/-- Modelled from the spec: the member ordering used when an object is
flushed — strict lexicographic comparison of the keys' UTF-16 code
units. -/
def keyLt (a b : List Nat) : Bool :=
  lexLt (decodeKey a) (decodeKey b)

/-! ## Errors -/

/-- Subset of `std::io::ErrorKind` relevant here (the source only ever
constructs `ErrorKind::Other`). -/
inductive ErrorKind where
  | other
  | notFound
  | unexpectedEof
deriving DecidableEq

/-- Embedding of `std::io::Error` as constructed by
`io::Error::new(kind, message)`. -/
structure IoError where
  kind : ErrorKind
  message : String
deriving DecidableEq

/-- Failure of one write event: an `io::Error` return, or a Rust panic
(the `todo!` in `write_number_str` unwinds instead of returning). -/
inductive Failure where
  | io (e : IoError)
  | panic (msg : String)
deriving DecidableEq

/-- The error value built at all three `io::Error::new(ErrorKind::Other,
"oh no")` sites in `ser.rs`. -/
def ohNo : IoError := ⟨.other, "oh no"⟩

/-! ## Floating-point inputs -/

/-- Embedding of `core::num::FpCategory`. -/
inductive FpCategory where
  | nan
  | infinite
  | zero
  | subnormal
  | normal
deriving DecidableEq

/-- Embedding of an `f32`/`f64` argument of `write_float`: its sign bit,
its `classify()` result, and the ASCII bytes `ryu_js` (the ECMAScript
`Number::toString` shortest-round-trip formatter) renders it to when it
is finite and nonzero.  `write_float` never inspects anything else. -/
structure FloatRepr where
  negative : Bool
  category : FpCategory
  shortest : List Nat
deriving DecidableEq

/-! ## Escapes -/

/-- Embedding of `serde_json::ser::CharEscape`. -/
inductive CharEscape where
  | quote
  | reverseSolidus
  | solidus
  | backspace
  | formFeed
  | lineFeed
  | carriageReturn
  | tab
  | asciiControl (c : Nat)
deriving DecidableEq

/-- Bytes emitted by `JcsFormatter::write_char_escape` for each escape
(the `AsciiControl` arm uses the local `serialize` helper with the
lowercase `HEX` table). -/
def escBytes : CharEscape → List Nat
  | .quote => [92, 34]
  | .reverseSolidus => [92, 92]
  | .solidus => [92, 47]
  | .backspace => [92, 98]
  | .formFeed => [92, 102]
  | .lineFeed => [92, 110]
  | .carriageReturn => [92, 114]
  | .tab => [92, 116]
  | .asciiControl c => [92, 117, 48, 48, hexDigit (c / 16), hexDigit (c % 16)]

/-- Which characters serde_json's string serializer escapes (its `ESCAPE`
table): control characters, the quotation mark, and the backslash.  The
solidus is not in the table. -/
def needsEscape (c : Nat) : Bool :=
  c < 32 || c == 34 || c == 92

/-- The `CharEscape` serde_json passes to `write_char_escape` for an
escaped character (`CharEscape::from_escape_table`); `Solidus` is never
produced. -/
def charEscapeOf (c : Nat) : CharEscape :=
  if c = 8 then .backspace
  else if c = 9 then .tab
  else if c = 10 then .lineFeed
  else if c = 12 then .formFeed
  else if c = 13 then .carriageReturn
  else if c = 34 then .quote
  else if c = 92 then .reverseSolidus
  else .asciiControl c

/-! ## The object buffer stack -/

/-- Modelled from the spec: the repository's `crate::entry::Entry` (its
`entry.rs` is not under `src/`).  Field names are those `ser.rs` uses:
`complete` (false while key bytes are being written, true afterwards),
the `next_key` / `next_val` scratch buffers, and the `object` member map
from finalized key bytes to finalized value bytes.  The map is modelled
as an association list kept sorted by `keyLt` (the spec's UTF-16
code-unit order), so that iterating it — as `end_object` does — yields
members in sorted key order, and inserting an existing key overwrites its
value. -/
structure Entry where
  complete : Bool
  next_key : List Nat
  next_val : List Nat
  object : List (List Nat × List Nat)
deriving DecidableEq

/-- Modelled from the spec: `Entry::new()` — a fresh frame with empty
scratch buffers and no members. -/
def Entry.new : Entry := ⟨false, [], [], []⟩

/-- Modelled from the spec: insertion into the member map, keeping it
sorted by `keyLt` and overwriting the value when an equivalent key is
already present (last write wins). -/
def insertMember : List (List Nat × List Nat) → List Nat → List Nat → List (List Nat × List Nat)
  | [], k, v => [(k, v)]
  | (k0, v0) :: rest, k, v =>
    if keyLt k k0 then (k, v) :: (k0, v0) :: rest
    else if keyLt k0 k then (k0, v0) :: insertMember rest k v
    else (k, v) :: rest

/-- Lookup by exact key bytes in the member map. -/
def lookupKey : List (List Nat × List Nat) → List Nat → Option (List Nat)
  | [], _ => none
  | (k0, v0) :: rest, k => if k0 == k then some v0 else lookupKey rest k

/-- Bytes the member-flush loop of `end_object` writes for the members
after the first one (each preceded by the comma that
`CompactFormatter::begin_object_key` emits when `first` is false). -/
def renderMore : List (List Nat × List Nat) → List Nat
  | [] => []
  | (k, v) :: rest => 44 :: (k ++ 58 :: v ++ renderMore rest)

/-- Bytes the member-flush loop of `end_object` writes: for each member,
key bytes, the colon from `CompactFormatter::begin_object_value`, value
bytes; members separated by commas. -/
def renderMembers : List (List Nat × List Nat) → List Nat
  | [] => []
  | (k, v) :: rest => k ++ 58 :: v ++ renderMore rest

/-- State of the formatter together with the output sink: `frames` is the
`Vec<Entry>` inside `JcsFormatter` (head of the list = top of the stack =
last element of the Rust vector), `out` the bytes written to the real
writer so far. -/
structure EncState where
  frames : List Entry
  out : List Nat
deriving DecidableEq

/-- Embedding of `JcsFormatter::scope` followed by `write_all(bs)`: bytes
go to the top frame's `next_val` buffer if that frame is `complete`, to
its `next_key` buffer otherwise, and straight to the writer when no frame
is open. -/
def emit (st : EncState) (bs : List Nat) : EncState :=
  match st.frames with
  | [] => ⟨[], st.out ++ bs⟩
  | e :: fr =>
    if e.complete then ⟨{ e with next_val := e.next_val ++ bs } :: fr, st.out⟩
    else ⟨{ e with next_key := e.next_key ++ bs } :: fr, st.out⟩

/-- Embedding of `JcsFormatter::entry_mut` followed by a mutation of the
top frame: errs with the `"oh no"` error when the stack is empty. -/
def modifyTop (st : EncState) (f : Entry → Entry) : Except Failure EncState :=
  match st.frames with
  | [] => .error (.io ohNo)
  | e :: fr => .ok ⟨f e :: fr, st.out⟩

/-! ## The event protocol -/

/-- Write events of the `serde_json::ser::Formatter` trait, as
implemented by `JcsFormatter`.  `writeInt` covers the eight
`write_i8 .. write_u64` methods, which all delegate to the corresponding
`CompactFormatter` method (decimal digits through `scope`); `writeFloat`
covers `write_f32` and `write_f64`, which both call
`JcsFormatter::write_float`. -/
inductive Event where
  | writeNull
  | writeBool (b : Bool)
  | writeInt (n : Int)
  | writeFloat (f : FloatRepr)
  | writeNumberStr (s : List Nat)
  | writeCharEscape (e : CharEscape)
  | writeStringFragment (cps : List Nat)
  | beginString
  | endString
  | beginArray
  | endArray
  | beginArrayValue (first : Bool)
  | endArrayValue
  | beginObject
  | endObject
  | beginObjectKey (first : Bool)
  | endObjectKey
  | beginObjectValue
  | endObjectValue
deriving DecidableEq

/-- One step of the formatter: the body of each `Formatter` method of
`JcsFormatter` in `ser.rs`. -/
def step (st : EncState) : Event → Except Failure EncState
  | .writeNull => .ok (emit st [110, 117, 108, 108])
  | .writeBool true => .ok (emit st [116, 114, 117, 101])
  | .writeBool false => .ok (emit st [102, 97, 108, 115, 101])
  | .writeInt n => .ok (emit st (intDec n))
  | .writeFloat f =>
    match f.category with
    | .nan => .error (.io ohNo)
    | .infinite => .error (.io ohNo)
    | .zero => .ok (emit st [48])
    | .subnormal => .ok (emit st f.shortest)
    | .normal => .ok (emit st f.shortest)
  | .writeNumberStr _ => .error (.panic "not yet implemented: Handle number str (u128/i128)")
  | .writeCharEscape e => .ok (emit st (escBytes e))
  | .writeStringFragment cps => .ok (emit st (utf8Encode cps))
  | .beginString => .ok (emit st [34])
  | .endString => .ok (emit st [34])
  | .beginArray => .ok (emit st [91])
  | .endArray => .ok (emit st [93])
  | .beginArrayValue first => .ok (emit st (if first then [] else [44]))
  | .endArrayValue => .ok st
  | .beginObject =>
    .ok ⟨Entry.new :: (emit st [123]).frames, (emit st [123]).out⟩
  | .endObject =>
    match st.frames with
    | [] => .error (.io ohNo)
    | e :: fr => .ok (emit ⟨fr, st.out⟩ (renderMembers e.object ++ [125]))
  | .beginObjectKey _ => modifyTop st fun e => { e with complete := false }
  | .endObjectKey => modifyTop st fun e => { e with complete := true }
  | .beginObjectValue => .ok st
  | .endObjectValue =>
    modifyTop st fun e =>
      { e with
        next_key := []
        next_val := []
        object := insertMember e.object e.next_key e.next_val }

/-- Run a list of events, stopping at the first failure (serde_json's
serializer aborts the encode on the first formatter error). -/
def runEvents : List Event → EncState → Except Failure EncState
  | [], st => .ok st
  | ev :: evs, st =>
    match step st ev with
    | .ok st1 => runEvents evs st1
    | .error e => .error e

/-! ## The traversal driver

The events serde_json's `Serializer` issues when serializing a JSON value
tree.  `JValue` is the value universe (strings and keys as code-point
sequences); `fragmentEvents` embeds `format_escaped_str_contents`: each
character either passes inside a `write_string_fragment` or becomes the
`write_char_escape` chosen by the `ESCAPE` table. -/

/-- String-content events serde_json generates between `begin_string` and
`end_string` (one fragment event per unescaped character; serde_json
batches runs, with identical output bytes). -/
def fragmentEvents : List Nat → List Event
  | [] => []
  | c :: cs =>
    (if needsEscape c then Event.writeCharEscape (charEscapeOf c)
     else Event.writeStringFragment [c]) :: fragmentEvents cs

/-- Events for one complete string token. -/
def stringEvents (s : List Nat) : List Event :=
  Event.beginString :: fragmentEvents s ++ [Event.endString]

mutual

/-- JSON value tree fed to the serializer; strings carry their Unicode
code points. -/
inductive JValue where
  | null
  | bool (b : Bool)
  | int (n : Int)
  | float (f : FloatRepr)
  | str (s : List Nat)
  | arr (xs : JElems)
  | obj (ms : JMembers)

/-- Array elements (in document order). -/
inductive JElems where
  | nil
  | cons (v : JValue) (tl : JElems)

/-- Object members (in document order, i.e. the order the driver visits
them, before any canonical reordering). -/
inductive JMembers where
  | nil
  | cons (k : List Nat) (v : JValue) (tl : JMembers)

end

mutual

/-- Formatter events serde_json's `Serializer` issues for a value. -/
def serializeValue : JValue → List Event
  | .null => [.writeNull]
  | .bool b => [.writeBool b]
  | .int n => [.writeInt n]
  | .float f => [.writeFloat f]
  | .str s => stringEvents s
  | .arr xs => .beginArray :: (serializeElems xs true ++ [.endArray])
  | .obj ms => .beginObject :: (serializeMembers ms true ++ [.endObject])

/-- Events for the elements of an array (`begin_array_value` with the
first flag, the element, `end_array_value`). -/
def serializeElems : JElems → Bool → List Event
  | .nil, _ => []
  | .cons v tl, first =>
    .beginArrayValue first ::
      (serializeValue v ++ .endArrayValue :: serializeElems tl false)

/-- Events for the members of an object (`begin_object_key` with the
first flag, the key string, `end_object_key`, `begin_object_value`, the
value, `end_object_value`). -/
def serializeMembers : JMembers → Bool → List Event
  | .nil, _ => []
  | .cons k v tl, first =>
    .beginObjectKey first ::
      (stringEvents k ++ .endObjectKey :: .beginObjectValue ::
        (serializeValue v ++ .endObjectValue :: serializeMembers tl false))

end

/-! ## Entry points (`ser.rs` lines 24–69) -/

/-- Embedding of `to_writer`: run the serializer with a fresh
`JcsFormatter` against a writer already holding `sink`, returning the
writer's final contents. -/
def to_writer (v : JValue) (sink : List Nat) : Except Failure (List Nat) :=
  match runEvents (serializeValue v) ⟨[], sink⟩ with
  | .ok st => .ok st.out
  | .error e => .error e

/-- Embedding of `to_vec`: serialize into a fresh byte vector. -/
def to_vec (v : JValue) : Except Failure (List Nat) :=
  to_writer v []

/-- Embedding of `to_string`: the bytes of `to_vec`, reinterpreted as a
string by `String::from_utf8_unchecked` (the byte sequence is returned
unchanged; its UTF-8 validity is what makes the unchecked conversion
sound). -/
def to_string (v : JValue) : Except Failure (List Nat) :=
  to_vec v

/-! ## Canonical denotation

A direct structural description of the bytes the encoder produces,
proved below (`run_serializeValue`) to agree with running the event
machine.  It exists so that per-value properties (UTF-8 validity,
concrete outputs) can be proved by structural induction on the value. -/

/-- Bytes contributed to the output for one string character: the escape
bytes when serde_json escapes it, its UTF-8 encoding otherwise. -/
def escByte (c : Nat) : List Nat :=
  if needsEscape c then escBytes (charEscapeOf c) else utf8Char c

/-- Escaped content bytes of a string. -/
def escapeAll : List Nat → List Nat
  | [] => []
  | c :: cs => escByte c ++ escapeAll cs

/-- Full string token: quote, escaped contents, quote. -/
def strBytes (s : List Nat) : List Nat :=
  34 :: escapeAll s ++ [34]

mutual

/-- Canonical bytes of a value (the denotation of the event machine). -/
def canonicalBytes : JValue → Except Failure (List Nat)
  | .null => .ok [110, 117, 108, 108]
  | .bool true => .ok [116, 114, 117, 101]
  | .bool false => .ok [102, 97, 108, 115, 101]
  | .int n => .ok (intDec n)
  | .float f =>
    match f.category with
    | .nan => .error (.io ohNo)
    | .infinite => .error (.io ohNo)
    | .zero => .ok [48]
    | .subnormal => .ok f.shortest
    | .normal => .ok f.shortest
  | .str s => .ok (strBytes s)
  | .arr xs =>
    match canonicalElems xs true with
    | .ok bs => .ok (91 :: bs ++ [93])
    | .error e => .error e
  | .obj ms =>
    match canonicalMembers ms [] with
    | .ok ob => .ok (123 :: renderMembers ob ++ [125])
    | .error e => .error e

/-- Canonical bytes of array elements, comma separated. -/
def canonicalElems : JElems → Bool → Except Failure (List Nat)
  | .nil, _ => .ok []
  | .cons v tl, first =>
    match canonicalBytes v with
    | .ok b =>
      match canonicalElems tl false with
      | .ok rest => .ok ((if first then [] else [44]) ++ b ++ rest)
      | .error e => .error e
    | .error e => .error e

/-- Member map accumulated over the members of an object: each member's
finalized key and value bytes inserted (in document order) into the
sorted map. -/
def canonicalMembers : JMembers → List (List Nat × List Nat) →
    Except Failure (List (List Nat × List Nat))
  | .nil, acc => .ok acc
  | .cons k v tl, acc =>
    match canonicalBytes v with
    | .ok vb => canonicalMembers tl (insertMember acc (strBytes k) vb)
    | .error e => .error e

end

/-! ## Quick sanity examples (executability checks of the machine) -/

example :
    runEvents [.beginObject, .beginObjectKey true, .beginString,
      .writeStringFragment [98], .endString, .endObjectKey, .beginObjectValue,
      .writeInt 1, .endObjectValue, .endObject] ⟨[], []⟩ =
    .ok ⟨[], [123, 34, 98, 34, 58, 49, 125]⟩ := rfl

example :
    to_vec (.obj (.cons [98] (.int 1) (.cons [97] (.int 2) .nil))) =
    .ok [123, 34, 97, 34, 58, 50, 44, 34, 98, 34, 58, 49, 125] := rfl

example :
    canonicalBytes (.obj (.cons [98] (.int 1) (.cons [97] (.int 2) .nil))) =
    .ok [123, 34, 97, 34, 58, 50, 44, 34, 98, 34, 58, 49, 125] := rfl

example :
    to_vec (.obj (.cons [0xE000] (.int 1) (.cons [0x1F600] (.int 2) .nil))) =
    .ok ([123] ++ [34, 240, 159, 152, 128, 34] ++ [58, 50, 44] ++
      [34, 238, 128, 128, 34] ++ [58, 49, 125]) := rfl

/-! ## Well-formed inputs and UTF-8 validity -/

/-- Unicode scalar values — the code points a Rust `char` (hence a Rust
string fed to the serializer) can carry. -/
def scalarCp (c : Nat) : Bool :=
  decide (c < 0xD800) || (decide (0xDFFF < c) && decide (c < 0x110000))

/-- A byte sequence is valid UTF-8 when it is the UTF-8 encoding of some
sequence of Unicode scalar values. -/
def Utf8Valid (bs : List Nat) : Prop :=
  ∃ cps, (∀ c ∈ cps, scalarCp c = true) ∧ bs = utf8Encode cps

mutual

/-- Well-formedness of an input value: all string and key code points are
Unicode scalar values (guaranteed by Rust's `char`/`str` types) and the
recorded `ryu_js` rendering of every float consists of ASCII bytes
(guaranteed by the numeric formatter's output alphabet). -/
def wfValue : JValue → Bool
  | .null => true
  | .bool _ => true
  | .int _ => true
  | .float f => f.shortest.all fun b => decide (b < 0x80)
  | .str s => s.all scalarCp
  | .arr xs => wfElems xs
  | .obj ms => wfMembers ms

/-- Well-formedness of array elements. -/
def wfElems : JElems → Bool
  | .nil => true
  | .cons v tl => wfValue v && wfElems tl

/-- Well-formedness of object members. -/
def wfMembers : JMembers → Bool
  | .nil => true
  | .cons k v tl => k.all scalarCp && wfValue v && wfMembers tl

end

/-- Every key and every value buffered in a member map is valid UTF-8. -/
def PairsValid (ob : List (List Nat × List Nat)) : Prop :=
  ∀ p ∈ ob, Utf8Valid p.1 ∧ Utf8Valid p.2

/-! ## Sortedness invariant of the buffer stack -/

/-- A member map is strictly sorted by the UTF-16 code-unit order of its
keys. -/
def SortedObj (m : List (List Nat × List Nat)) : Prop :=
  List.Pairwise (fun p q => keyLt p.1 q.1 = true) m

/-- Every open frame's member map is sorted. -/
def SortedFrames (fr : List Entry) : Prop :=
  ∀ e ∈ fr, SortedObj e.object

/-! ## Spec-side statement of the escaping rule (for comparison)

Written from the spec's words (with the solidus clause amended): quote and
backslash get two-character escapes, the five control characters with
short forms get them, every other control character becomes `\u00XX` with
lowercase hex digits, and everything else — the solidus included — passes
through as its UTF-8 bytes. -/

/-- Bytes contributed by one string character according to the amended
escaping rule. -/
def escapeCharSpec (c : Nat) : List Nat :=
  if c = 34 then [92, 34]
  else if c = 92 then [92, 92]
  else if c = 8 then [92, 98]
  else if c = 12 then [92, 102]
  else if c = 10 then [92, 110]
  else if c = 13 then [92, 114]
  else if c = 9 then [92, 116]
  else if c < 32 then [92, 117, 48, 48, hexDigit (c / 16), hexDigit (c % 16)]
  else utf8Char c

/-- The amended escaping rule applied to a whole string. -/
def escapeSpecAll : List Nat → List Nat
  | [] => []
  | c :: cs => escapeCharSpec c ++ escapeSpecAll cs

/-! ## Scope-resolver lemmas -/

theorem emit_nil (st : EncState) : emit st [] = st := by
  obtain ⟨frames, out⟩ := st
  cases frames with
  | nil => simp [emit]
  | cons e fr =>
    obtain ⟨c, nk, nv, ob⟩ := e
    by_cases h : c <;> simp [emit, h]

theorem emit_emit (st : EncState) (a b : List Nat) :
    emit (emit st a) b = emit st (a ++ b) := by
  obtain ⟨frames, out⟩ := st
  cases frames with
  | nil => simp [emit]
  | cons e fr => by_cases h : e.complete <;> simp [emit, h]

theorem runEvents_append (a b : List Event) (st : EncState) :
    runEvents (a ++ b) st =
      match runEvents a st with
      | .ok st1 => runEvents b st1
      | .error e => .error e := by
  induction a generalizing st with
  | nil => simp [runEvents]
  | cons ev evs ih =>
    simp only [List.cons_append, runEvents]
    cases step st ev with
    | ok st1 => simp [ih]
    | error e => simp

theorem run_fragmentEvents (s : List Nat) (st : EncState) :
    runEvents (fragmentEvents s) st = .ok (emit st (escapeAll s)) := by
  induction s generalizing st with
  | nil => simp [fragmentEvents, runEvents, escapeAll, emit_nil]
  | cons c cs ih =>
    by_cases h : needsEscape c
    · simp [fragmentEvents, runEvents, h, step, escapeAll, escByte, ih, emit_emit]
    · simp [fragmentEvents, runEvents, h, step, escapeAll, escByte, ih, emit_emit,
        utf8Encode]

theorem run_stringEvents (s : List Nat) (st : EncState) :
    runEvents (stringEvents s) st = .ok (emit st (strBytes s)) := by
  simp [stringEvents, runEvents, step, runEvents_append, run_fragmentEvents,
    strBytes, emit_emit]

/-! ## Refinement: the event machine computes the canonical denotation -/

theorem runEvents_cons_ok {st st1 : EncState} {ev : Event} (evs : List Event)
    (h : step st ev = .ok st1) :
    runEvents (ev :: evs) st = runEvents evs st1 := by
  simp [runEvents, h]

theorem runEvents_append_ok {a : List Event} {st st1 : EncState} (b : List Event)
    (h : runEvents a st = .ok st1) :
    runEvents (a ++ b) st = runEvents b st1 := by
  rw [runEvents_append, h]

theorem runEvents_append_error {a : List Event} {st : EncState} {e : Failure}
    (b : List Event) (h : runEvents a st = .error e) :
    runEvents (a ++ b) st = .error e := by
  rw [runEvents_append, h]

mutual

theorem run_serializeValue (v : JValue) (st : EncState) :
    runEvents (serializeValue v) st =
      match canonicalBytes v with
      | .ok bs => .ok (emit st bs)
      | .error e => .error e := by
  cases v with
  | null => simp [serializeValue, canonicalBytes, runEvents, step]
  | bool b => cases b <;> simp [serializeValue, canonicalBytes, runEvents, step]
  | int n => simp [serializeValue, canonicalBytes, runEvents, step]
  | float f =>
    cases hc : f.category <;>
      simp [serializeValue, canonicalBytes, runEvents, step, hc]
  | str s =>
    have e1 : serializeValue (.str s) = stringEvents s := rfl
    rw [e1, run_stringEvents]
    simp [canonicalBytes]
  | arr xs =>
    have harr := run_serializeElems xs true (emit st [91])
    simp only [serializeValue, canonicalBytes, List.append_eq]
    cases he : canonicalElems xs true with
    | ok bs =>
      rw [he] at harr
      simp [runEvents, step, runEvents_append, harr, emit_emit]
    | error err =>
      rw [he] at harr
      simp [runEvents, step, runEvents_append, harr]
  | obj ms =>
    obtain ⟨c, h⟩ := run_serializeMembers ms true false []
      (emit st [123]).frames (emit st [123]).out
    have heta : (⟨(emit st [123]).frames, (emit st [123]).out⟩ : EncState) =
        emit st [123] := rfl
    simp only [serializeValue, canonicalBytes, List.append_eq]
    cases hm : canonicalMembers ms [] with
    | ok ob =>
      rw [hm] at h
      simp [runEvents, step, runEvents_append, Entry.new, h, heta, emit_emit]
    | error err =>
      rw [hm] at h
      simp [runEvents, step, runEvents_append, Entry.new, h]

theorem run_serializeElems (xs : JElems) (first : Bool) (st : EncState) :
    runEvents (serializeElems xs first) st =
      match canonicalElems xs first with
      | .ok bs => .ok (emit st bs)
      | .error e => .error e := by
  cases xs with
  | nil => simp [serializeElems, canonicalElems, runEvents, emit_nil]
  | cons v tl =>
    have hval := run_serializeValue v (emit st (if first then [] else [44]))
    simp only [serializeElems, canonicalElems, List.append_eq]
    cases hv : canonicalBytes v with
    | ok b =>
      simp only [hv] at hval
      have htl := run_serializeElems tl false
        (emit (emit st (if first then [] else [44])) b)
      cases ht : canonicalElems tl false with
      | ok rest =>
        simp only [ht] at htl
        simp only [emit_emit] at htl
        simp [runEvents, step, runEvents_append, hval, htl, emit_emit,
          List.append_assoc]
      | error err =>
        simp only [ht] at htl
        simp only [emit_emit] at htl
        simp [runEvents, step, runEvents_append, hval, htl, emit_emit]
    | error err =>
      simp only [hv] at hval
      simp [runEvents, step, runEvents_append, hval]

theorem run_serializeMembers (ms : JMembers) (first : Bool) (c0 : Bool)
    (ob : List (List Nat × List Nat)) (fr : List Entry) (out : List Nat) :
    ∃ c : Bool,
      runEvents (serializeMembers ms first) ⟨⟨c0, [], [], ob⟩ :: fr, out⟩ =
        match canonicalMembers ms ob with
        | .ok o2 => .ok ⟨⟨c, [], [], o2⟩ :: fr, out⟩
        | .error err => .error err := by
  cases ms with
  | nil => exact ⟨c0, by simp [serializeMembers, canonicalMembers, runEvents]⟩
  | cons k v tl =>
    have hval := run_serializeValue v ⟨⟨true, strBytes k, [], ob⟩ :: fr, out⟩
    have hstr := run_stringEvents k ⟨⟨false, [], [], ob⟩ :: fr, out⟩
    have e1 : serializeMembers (.cons k v tl) first =
        .beginObjectKey first :: (stringEvents k ++ .endObjectKey ::
          .beginObjectValue ::
            (serializeValue v ++ .endObjectValue :: serializeMembers tl false)) := rfl
    have h0 : step ⟨⟨c0, [], [], ob⟩ :: fr, out⟩ (.beginObjectKey first) =
        .ok ⟨⟨false, [], [], ob⟩ :: fr, out⟩ := rfl
    have h1 : emit ⟨⟨false, [], [], ob⟩ :: fr, out⟩ (strBytes k) =
        ⟨⟨false, strBytes k, [], ob⟩ :: fr, out⟩ := by simp [emit]
    rw [h1] at hstr
    have h2 : step ⟨⟨false, strBytes k, [], ob⟩ :: fr, out⟩ Event.endObjectKey =
        .ok ⟨⟨true, strBytes k, [], ob⟩ :: fr, out⟩ := rfl
    have h3 : step ⟨⟨true, strBytes k, [], ob⟩ :: fr, out⟩ Event.beginObjectValue =
        .ok ⟨⟨true, strBytes k, [], ob⟩ :: fr, out⟩ := rfl
    cases hv : canonicalBytes v with
    | ok vb =>
      simp only [hv] at hval
      have h4 : emit ⟨⟨true, strBytes k, [], ob⟩ :: fr, out⟩ vb =
          ⟨⟨true, strBytes k, vb, ob⟩ :: fr, out⟩ := by simp [emit]
      rw [h4] at hval
      have h5 : step ⟨⟨true, strBytes k, vb, ob⟩ :: fr, out⟩ Event.endObjectValue =
          .ok ⟨⟨true, [], [], insertMember ob (strBytes k) vb⟩ :: fr, out⟩ := rfl
      obtain ⟨c, ih⟩ := run_serializeMembers tl false true
        (insertMember ob (strBytes k) vb) fr out
      refine ⟨c, ?_⟩
      rw [e1, runEvents_cons_ok _ h0, runEvents_append_ok _ hstr,
        runEvents_cons_ok _ h2, runEvents_cons_ok _ h3,
        runEvents_append_ok _ hval, runEvents_cons_ok _ h5, ih]
      simp only [canonicalMembers, hv]
    | error err =>
      simp only [hv] at hval
      refine ⟨c0, ?_⟩
      rw [e1, runEvents_cons_ok _ h0, runEvents_append_ok _ hstr,
        runEvents_cons_ok _ h2, runEvents_cons_ok _ h3,
        runEvents_append_error _ hval]
      simp only [canonicalMembers, hv]

end

/-! ## Properties of the key order and of map insertion -/

theorem lexLt_irrefl (a : List Nat) : lexLt a a = false := by
  induction a with
  | nil => rfl
  | cons x xs ih => simp [lexLt, ih]

theorem lexLt_trans {a b c : List Nat} (h1 : lexLt a b = true)
    (h2 : lexLt b c = true) : lexLt a c = true := by
  induction a generalizing b c with
  | nil =>
    cases b with
    | nil => simp [lexLt] at h1
    | cons y ys => cases c with
      | nil => simp [lexLt] at h2
      | cons z zs => simp [lexLt]
  | cons x xs ih =>
    cases b with
    | nil => simp [lexLt] at h1
    | cons y ys =>
      cases c with
      | nil => simp [lexLt] at h2
      | cons z zs =>
        simp only [lexLt, Bool.or_eq_true, Bool.and_eq_true, beq_iff_eq,
          decide_eq_true_eq] at h1 h2 ⊢
        rcases h1 with h1 | ⟨rfl, h1⟩
        · rcases h2 with h2 | ⟨rfl, h2⟩
          · exact Or.inl (Nat.lt_trans h1 h2)
          · exact Or.inl h1
        · rcases h2 with h2 | ⟨rfl, h2⟩
          · exact Or.inl h2
          · exact Or.inr ⟨rfl, ih h1 h2⟩

theorem lexLt_eq_of_not {a b : List Nat} (h1 : lexLt a b = false)
    (h2 : lexLt b a = false) : a = b := by
  induction a generalizing b with
  | nil =>
    cases b with
    | nil => rfl
    | cons y ys => simp [lexLt] at h1
  | cons x xs ih =>
    cases b with
    | nil => simp [lexLt] at h2
    | cons y ys =>
      simp only [lexLt, Bool.or_eq_false_iff, Bool.and_eq_false_iff,
        decide_eq_false_iff_not, beq_eq_false_iff_ne, ne_eq] at h1 h2
      obtain ⟨hxy, h1r⟩ := h1
      obtain ⟨hyx, h2r⟩ := h2
      have hxyeq : x = y := by omega
      subst hxyeq
      rcases h1r with h | h1r
      · exact absurd rfl h
      · rcases h2r with h | h2r
        · exact absurd rfl h
        · rw [ih h1r h2r]

theorem keyLt_trans {a b c : List Nat} (h1 : keyLt a b = true)
    (h2 : keyLt b c = true) : keyLt a c = true :=
  lexLt_trans h1 h2

theorem keyLt_irrefl (a : List Nat) : keyLt a a = false :=
  lexLt_irrefl (decodeKey a)

theorem decodeKey_eq_of_not {a b : List Nat} (h1 : keyLt a b = false)
    (h2 : keyLt b a = false) : decodeKey a = decodeKey b :=
  lexLt_eq_of_not h1 h2

theorem insertMember_lt {k k0 v v0 : List Nat}
    (rest : List (List Nat × List Nat)) (h1 : keyLt k k0 = true) :
    insertMember ((k0, v0) :: rest) k v = (k, v) :: (k0, v0) :: rest := by
  simp [insertMember, h1]

theorem insertMember_gt {k k0 v v0 : List Nat}
    (rest : List (List Nat × List Nat)) (h1 : keyLt k k0 = false)
    (h2 : keyLt k0 k = true) :
    insertMember ((k0, v0) :: rest) k v = (k0, v0) :: insertMember rest k v := by
  simp [insertMember, h1, h2]

theorem insertMember_eq {k k0 v v0 : List Nat}
    (rest : List (List Nat × List Nat)) (h1 : keyLt k k0 = false)
    (h2 : keyLt k0 k = false) :
    insertMember ((k0, v0) :: rest) k v = (k, v) :: rest := by
  simp [insertMember, h1, h2]

theorem mem_insertMember {m : List (List Nat × List Nat)} {k v : List Nat}
    {p : List Nat × List Nat} (h : p ∈ insertMember m k v) :
    p = (k, v) ∨ p ∈ m := by
  induction m with
  | nil => simpa [insertMember] using h
  | cons q rest ih =>
    obtain ⟨k0, v0⟩ := q
    by_cases h1 : keyLt k k0
    · rw [insertMember_lt rest h1] at h
      simp only [List.mem_cons] at h ⊢
      tauto
    · rw [Bool.not_eq_true] at h1
      by_cases h2 : keyLt k0 k
      · rw [insertMember_gt rest h1 h2] at h
        simp only [List.mem_cons] at h ⊢
        rcases h with h | h
        · tauto
        · rcases ih h with h | h <;> tauto
      · rw [Bool.not_eq_true] at h2
        rw [insertMember_eq rest h1 h2] at h
        simp only [List.mem_cons] at h ⊢
        tauto

theorem pairwise_insertMember {m : List (List Nat × List Nat)}
    {k v : List Nat} (h : SortedObj m) : SortedObj (insertMember m k v) := by
  induction m with
  | nil => simp [insertMember, SortedObj]
  | cons q rest ih =>
    obtain ⟨k0, v0⟩ := q
    rw [SortedObj, List.pairwise_cons] at h
    obtain ⟨hq, hrest⟩ := h
    by_cases h1 : keyLt k k0
    · rw [SortedObj, insertMember_lt rest h1]
      refine List.Pairwise.cons ?_ (List.Pairwise.cons hq hrest)
      intro p hp
      rcases List.mem_cons.mp hp with rfl | hp
      · exact h1
      · exact keyLt_trans h1 (hq p hp)
    · rw [Bool.not_eq_true] at h1
      by_cases h2 : keyLt k0 k
      · rw [SortedObj, insertMember_gt rest h1 h2]
        refine List.Pairwise.cons ?_ (ih hrest)
        intro p hp
        rcases mem_insertMember hp with rfl | hp
        · exact h2
        · exact hq p hp
      · rw [Bool.not_eq_true] at h2
        rw [SortedObj, insertMember_eq rest h1 h2]
        refine List.Pairwise.cons ?_ hrest
        intro p hp
        have hd : decodeKey k0 = decodeKey k := decodeKey_eq_of_not h2 h1
        have hk0 := hq p hp
        rw [keyLt, ← hd]
        exact hk0

theorem lookupKey_insertMember (m : List (List Nat × List Nat))
    (k v : List Nat) : lookupKey (insertMember m k v) k = some v := by
  induction m with
  | nil => simp [insertMember, lookupKey]
  | cons q rest ih =>
    obtain ⟨k0, v0⟩ := q
    by_cases h1 : keyLt k k0
    · rw [insertMember_lt rest h1]
      simp [lookupKey]
    · rw [Bool.not_eq_true] at h1
      by_cases h2 : keyLt k0 k
      · have hne : (k0 == k) = false := by
          apply beq_eq_false_iff_ne.mpr
          rintro rfl
          rw [keyLt_irrefl] at h2
          exact Bool.false_ne_true h2
        rw [insertMember_gt rest h1 h2]
        simp [lookupKey, hne, ih]
      · rw [Bool.not_eq_true] at h2
        rw [insertMember_eq rest h1 h2]
        simp [lookupKey]

/-! ## The machine preserves the sortedness invariant -/

theorem sortedFrames_emit {st : EncState} (bs : List Nat)
    (h : SortedFrames st.frames) : SortedFrames (emit st bs).frames := by
  obtain ⟨frames, out⟩ := st
  cases frames with
  | nil => intro e he; simp [emit] at he
  | cons e fr =>
    by_cases hc : e.complete
    · intro e1 he1
      simp only [emit, hc, if_pos] at he1
      rcases List.mem_cons.mp he1 with rfl | he1
      · exact h e (List.mem_cons_self e fr)
      · exact h e1 (List.mem_cons_of_mem e he1)
    · intro e1 he1
      simp only [emit, hc, if_neg, Bool.not_eq_true] at he1
      rcases List.mem_cons.mp he1 with rfl | he1
      · exact h e (List.mem_cons_self e fr)
      · exact h e1 (List.mem_cons_of_mem e he1)

theorem sortedFrames_step {st st1 : EncState} {ev : Event}
    (h : SortedFrames st.frames) (hs : step st ev = .ok st1) :
    SortedFrames st1.frames := by
  cases ev with
  | writeNull =>
    simp only [step, Except.ok.injEq] at hs
    exact hs ▸ sortedFrames_emit _ h
  | writeBool b =>
    cases b <;> simp only [step, Except.ok.injEq] at hs <;>
      exact hs ▸ sortedFrames_emit _ h
  | writeInt n =>
    simp only [step, Except.ok.injEq] at hs
    exact hs ▸ sortedFrames_emit _ h
  | writeFloat f =>
    cases hc : f.category <;> simp only [step, hc, Except.ok.injEq] at hs
    · cases hs
    · cases hs
    · exact hs ▸ sortedFrames_emit _ h
    · exact hs ▸ sortedFrames_emit _ h
    · exact hs ▸ sortedFrames_emit _ h
  | writeNumberStr s =>
    simp only [step] at hs
    cases hs
  | writeCharEscape e =>
    simp only [step, Except.ok.injEq] at hs
    exact hs ▸ sortedFrames_emit _ h
  | writeStringFragment cps =>
    simp only [step, Except.ok.injEq] at hs
    exact hs ▸ sortedFrames_emit _ h
  | beginString =>
    simp only [step, Except.ok.injEq] at hs
    exact hs ▸ sortedFrames_emit _ h
  | endString =>
    simp only [step, Except.ok.injEq] at hs
    exact hs ▸ sortedFrames_emit _ h
  | beginArray =>
    simp only [step, Except.ok.injEq] at hs
    exact hs ▸ sortedFrames_emit _ h
  | endArray =>
    simp only [step, Except.ok.injEq] at hs
    exact hs ▸ sortedFrames_emit _ h
  | beginArrayValue first =>
    simp only [step, Except.ok.injEq] at hs
    exact hs ▸ sortedFrames_emit _ h
  | endArrayValue =>
    simp only [step, Except.ok.injEq] at hs
    exact hs ▸ h
  | beginObject =>
    simp only [step, Except.ok.injEq] at hs
    subst hs
    intro e he
    rcases List.mem_cons.mp he with rfl | he
    · exact List.Pairwise.nil
    · exact sortedFrames_emit _ h e he
  | endObject =>
    cases hf : st.frames with
    | nil => simp only [step, hf] at hs; cases hs
    | cons e fr =>
      simp only [step, hf, Except.ok.injEq] at hs
      subst hs
      refine sortedFrames_emit _ ?_
      intro e1 he1
      exact h e1 (hf ▸ List.mem_cons_of_mem e he1)
  | beginObjectKey first =>
    cases hf : st.frames with
    | nil => simp only [step, modifyTop, hf] at hs; cases hs
    | cons e fr =>
      simp only [step, modifyTop, hf, Except.ok.injEq] at hs
      subst hs
      intro e1 he1
      rcases List.mem_cons.mp he1 with rfl | he1
      · exact h e (hf ▸ List.mem_cons_self e fr)
      · exact h e1 (hf ▸ List.mem_cons_of_mem e he1)
  | endObjectKey =>
    cases hf : st.frames with
    | nil => simp only [step, modifyTop, hf] at hs; cases hs
    | cons e fr =>
      simp only [step, modifyTop, hf, Except.ok.injEq] at hs
      subst hs
      intro e1 he1
      rcases List.mem_cons.mp he1 with rfl | he1
      · exact h e (hf ▸ List.mem_cons_self e fr)
      · exact h e1 (hf ▸ List.mem_cons_of_mem e he1)
  | beginObjectValue =>
    simp only [step, Except.ok.injEq] at hs
    exact hs ▸ h
  | endObjectValue =>
    cases hf : st.frames with
    | nil => simp only [step, modifyTop, hf] at hs; cases hs
    | cons e fr =>
      simp only [step, modifyTop, hf, Except.ok.injEq] at hs
      subst hs
      intro e1 he1
      rcases List.mem_cons.mp he1 with rfl | he1
      · exact pairwise_insertMember (h e (hf ▸ List.mem_cons_self e fr))
      · exact h e1 (hf ▸ List.mem_cons_of_mem e he1)

theorem sortedFrames_runEvents {evs : List Event} {st st1 : EncState}
    (h : SortedFrames st.frames) (hr : runEvents evs st = .ok st1) :
    SortedFrames st1.frames := by
  induction evs generalizing st with
  | nil =>
    simp only [runEvents, Except.ok.injEq] at hr
    exact hr ▸ h
  | cons ev evs ih =>
    simp only [runEvents] at hr
    cases hst : step st ev with
    | ok st2 =>
      rw [hst] at hr
      exact ih (sortedFrames_step h hst) hr
    | error e =>
      rw [hst] at hr
      cases hr

theorem sortedFrames_reachable {evs : List Event} {st : EncState}
    (hr : runEvents evs ⟨[], []⟩ = .ok st) : SortedFrames st.frames :=
  sortedFrames_runEvents (fun e he => by simp at he) hr

/-! ## UTF-8 validity of everything the encoder emits -/

theorem utf8Encode_append (a b : List Nat) :
    utf8Encode (a ++ b) = utf8Encode a ++ utf8Encode b := by
  induction a with
  | nil => simp [utf8Encode]
  | cons c cs ih => simp [utf8Encode, ih]

theorem utf8Valid_nil : Utf8Valid [] :=
  ⟨[], by intro c hc; simp at hc, rfl⟩

theorem utf8Valid_append {a b : List Nat} (ha : Utf8Valid a)
    (hb : Utf8Valid b) : Utf8Valid (a ++ b) := by
  obtain ⟨ca, hca, rfl⟩ := ha
  obtain ⟨cb, hcb, rfl⟩ := hb
  refine ⟨ca ++ cb, ?_, (utf8Encode_append ca cb).symm⟩
  intro c hc
  rcases List.mem_append.mp hc with h | h
  · exact hca c h
  · exact hcb c h

theorem utf8Encode_ascii {bs : List Nat} (h : ∀ b ∈ bs, b < 128) :
    utf8Encode bs = bs := by
  induction bs with
  | nil => rfl
  | cons b rest ih =>
    have hb := h b (List.mem_cons_self b rest)
    simp [utf8Encode, utf8Char, hb,
      ih fun x hx => h x (List.mem_cons_of_mem b hx)]

theorem utf8Valid_ascii {bs : List Nat} (h : ∀ b ∈ bs, b < 128) :
    Utf8Valid bs := by
  refine ⟨bs, ?_, (utf8Encode_ascii h).symm⟩
  intro c hc
  have := h c hc
  simp only [scalarCp, Bool.or_eq_true, Bool.and_eq_true, decide_eq_true_eq]
  omega

theorem utf8Valid_char {c : Nat} (h : scalarCp c = true) :
    Utf8Valid (utf8Char c) := by
  refine ⟨[c], ?_, by simp [utf8Encode]⟩
  intro x hx
  simp only [List.mem_singleton] at hx
  exact hx ▸ h

theorem hexDigit_lt {n : Nat} (h : n < 16) : hexDigit n < 128 := by
  unfold hexDigit
  split <;> omega

theorem natDecAux_ascii (fuel : Nat) : ∀ n, ∀ b ∈ natDecAux fuel n, b < 128 := by
  induction fuel with
  | zero => intro n b hb; simp [natDecAux] at hb
  | succ fuel ih =>
    intro n b hb
    by_cases h : n < 10
    · simp [natDecAux, h] at hb
      omega
    · simp only [natDecAux, h, if_false] at hb
      rw [List.mem_append] at hb
      rcases hb with hb | hb
      · exact ih (n / 10) b hb
      · simp only [List.mem_singleton] at hb
        have : n % 10 < 10 := Nat.mod_lt n (by omega)
        omega

theorem intDec_ascii (n : Int) : ∀ b ∈ intDec n, b < 128 := by
  intro b hb
  unfold intDec natDec at hb
  by_cases h : n < 0
  · simp only [h, if_pos, List.mem_cons] at hb
    rcases hb with rfl | hb
    · omega
    · exact natDecAux_ascii _ _ b hb
  · simp only [h, if_neg, Bool.not_eq_true] at hb
    exact natDecAux_ascii _ _ b hb

theorem charEscapeOf_ascii {c c1 : Nat}
    (h : charEscapeOf c = .asciiControl c1) : c1 = c := by
  unfold charEscapeOf at h
  split_ifs at h
  injection h with h2
  exact h2.symm

theorem escBytes_ascii {e : CharEscape}
    (h : ∀ c, e = .asciiControl c → c < 32) : ∀ b ∈ escBytes e, b < 128 := by
  cases e <;> intro b hb <;> simp [escBytes] at hb
  case asciiControl c =>
    have hc := h c rfl
    have h1 : hexDigit (c / 16) < 128 := hexDigit_lt (by omega)
    have h2 : hexDigit (c % 16) < 128 := hexDigit_lt (by omega)
    omega
  all_goals omega

theorem escByte_valid {c : Nat} (h : scalarCp c = true) :
    Utf8Valid (escByte c) := by
  by_cases he : needsEscape c = true
  · apply utf8Valid_ascii
    intro b hb
    rw [escByte, if_pos he] at hb
    refine escBytes_ascii ?_ b hb
    intro c1 hcc
    have hc : c < 32 ∨ c = 34 ∨ c = 92 := by
      simp only [needsEscape, Bool.or_eq_true, decide_eq_true_eq,
        beq_iff_eq] at he
      omega
    rcases hc with hc | rfl | rfl
    · exact charEscapeOf_ascii hcc ▸ hc
    · simp [charEscapeOf] at hcc
    · simp [charEscapeOf] at hcc
  · rw [escByte, if_neg he]
    exact utf8Valid_char h

theorem escapeAll_valid {s : List Nat} (h : ∀ c ∈ s, scalarCp c = true) :
    Utf8Valid (escapeAll s) := by
  induction s with
  | nil => exact utf8Valid_nil
  | cons c cs ih =>
    rw [show escapeAll (c :: cs) = escByte c ++ escapeAll cs from rfl]
    exact utf8Valid_append (escByte_valid (h c (List.mem_cons_self c cs)))
      (ih fun x hx => h x (List.mem_cons_of_mem c hx))

theorem strBytes_valid {s : List Nat} (h : ∀ c ∈ s, scalarCp c = true) :
    Utf8Valid (strBytes s) := by
  rw [show strBytes s = [34] ++ (escapeAll s ++ [34]) from rfl]
  refine utf8Valid_append (utf8Valid_ascii ?_) (utf8Valid_append
    (escapeAll_valid h) (utf8Valid_ascii ?_)) <;>
    · intro b hb
      simp only [List.mem_singleton] at hb
      omega

theorem renderMore_valid {ob : List (List Nat × List Nat)}
    (h : PairsValid ob) : Utf8Valid (renderMore ob) := by
  induction ob with
  | nil => exact utf8Valid_nil
  | cons p rest ih =>
    obtain ⟨k, v⟩ := p
    obtain ⟨hk, hv⟩ := h (k, v) (List.mem_cons_self _ _)
    have hr := ih fun q hq => h q (List.mem_cons_of_mem _ hq)
    rw [show renderMore ((k, v) :: rest) =
      [44] ++ (k ++ ([58] ++ (v ++ renderMore rest))) by simp [renderMore]]
    refine utf8Valid_append (utf8Valid_ascii ?_) (utf8Valid_append hk
      (utf8Valid_append (utf8Valid_ascii ?_)
        (utf8Valid_append hv hr))) <;>
      · intro b hb
        simp only [List.mem_singleton] at hb
        omega

theorem renderMembers_valid {ob : List (List Nat × List Nat)}
    (h : PairsValid ob) : Utf8Valid (renderMembers ob) := by
  cases ob with
  | nil => exact utf8Valid_nil
  | cons p rest =>
    obtain ⟨k, v⟩ := p
    obtain ⟨hk, hv⟩ := h (k, v) (List.mem_cons_self _ _)
    have hr := renderMore_valid fun q hq => h q (List.mem_cons_of_mem _ hq)
    rw [show renderMembers ((k, v) :: rest) =
      k ++ ([58] ++ (v ++ renderMore rest)) by simp [renderMembers]]
    refine utf8Valid_append hk (utf8Valid_append (utf8Valid_ascii ?_)
      (utf8Valid_append hv hr))
    intro b hb
    simp only [List.mem_singleton] at hb
    omega

mutual

theorem canonicalBytes_valid (v : JValue) (bs : List Nat)
    (hwf : wfValue v = true) (h : canonicalBytes v = .ok bs) :
    Utf8Valid bs := by
  cases v with
  | null =>
    simp only [canonicalBytes, Except.ok.injEq] at h
    subst h
    exact utf8Valid_ascii (by intro b hb; simp at hb; omega)
  | bool b =>
    cases b <;> simp only [canonicalBytes, Except.ok.injEq] at h <;> subst h <;>
      exact utf8Valid_ascii (by intro b hb; simp at hb; omega)
  | int n =>
    simp only [canonicalBytes, Except.ok.injEq] at h
    subst h
    exact utf8Valid_ascii (intDec_ascii n)
  | float f =>
    cases hc : f.category <;> simp only [canonicalBytes, hc,
      Except.ok.injEq] at h
    · cases h
    · cases h
    · subst h
      exact utf8Valid_ascii (by intro b hb; simp at hb; omega)
    · subst h
      refine utf8Valid_ascii ?_
      simp only [wfValue, List.all_eq_true, decide_eq_true_eq] at hwf
      exact hwf
    · subst h
      refine utf8Valid_ascii ?_
      simp only [wfValue, List.all_eq_true, decide_eq_true_eq] at hwf
      exact hwf
  | str s =>
    simp only [canonicalBytes, Except.ok.injEq] at h
    subst h
    simp only [wfValue, List.all_eq_true] at hwf
    exact strBytes_valid hwf
  | arr xs =>
    simp only [canonicalBytes] at h
    cases he : canonicalElems xs true with
    | ok bs1 =>
      rw [he] at h
      simp only [Except.ok.injEq] at h
      subst h
      simp only [wfValue] at hwf
      have hb := canonicalElems_valid xs true bs1 hwf he
      rw [show (91 : Nat) :: bs1 ++ [93] = [91] ++ (bs1 ++ [93]) from rfl]
      refine utf8Valid_append (utf8Valid_ascii ?_)
        (utf8Valid_append hb (utf8Valid_ascii ?_)) <;>
        · intro b hb2
          simp only [List.mem_singleton] at hb2
          omega
    | error e =>
      rw [he] at h
      cases h
  | obj ms =>
    simp only [canonicalBytes] at h
    cases hm : canonicalMembers ms [] with
    | ok ob =>
      rw [hm] at h
      simp only [Except.ok.injEq] at h
      subst h
      simp only [wfValue] at hwf
      have hob := canonicalMembers_valid ms [] ob hwf
        (by intro p hp; simp at hp) hm
      rw [show (123 : Nat) :: renderMembers ob ++ [125] =
        [123] ++ (renderMembers ob ++ [125]) from rfl]
      refine utf8Valid_append (utf8Valid_ascii ?_)
        (utf8Valid_append (renderMembers_valid hob) (utf8Valid_ascii ?_)) <;>
        · intro b hb2
          simp only [List.mem_singleton] at hb2
          omega
    | error e =>
      rw [hm] at h
      cases h

theorem canonicalElems_valid (xs : JElems) (first : Bool) (bs : List Nat)
    (hwf : wfElems xs = true) (h : canonicalElems xs first = .ok bs) :
    Utf8Valid bs := by
  cases xs with
  | nil =>
    simp only [canonicalElems, Except.ok.injEq] at h
    subst h
    exact utf8Valid_nil
  | cons v tl =>
    simp only [wfElems, Bool.and_eq_true] at hwf
    obtain ⟨hwf1, hwf2⟩ := hwf
    simp only [canonicalElems] at h
    cases hv : canonicalBytes v with
    | ok b =>
      rw [hv] at h
      cases ht : canonicalElems tl false with
      | ok rest =>
        rw [ht] at h
        simp only [Except.ok.injEq] at h
        subst h
        refine utf8Valid_append (utf8Valid_append ?_
          (canonicalBytes_valid v b hwf1 hv))
          (canonicalElems_valid tl false rest hwf2 ht)
        refine utf8Valid_ascii ?_
        intro b2 hb2
        by_cases hf : first = true
        · simp [hf] at hb2
        · simp [hf] at hb2
          omega
      | error e =>
        rw [ht] at h
        cases h
    | error e =>
      rw [hv] at h
      cases h

theorem canonicalMembers_valid (ms : JMembers)
    (acc ob : List (List Nat × List Nat)) (hwf : wfMembers ms = true)
    (hacc : PairsValid acc) (h : canonicalMembers ms acc = .ok ob) :
    PairsValid ob := by
  cases ms with
  | nil =>
    simp only [canonicalMembers, Except.ok.injEq] at h
    subst h
    exact hacc
  | cons k v tl =>
    simp only [wfMembers, Bool.and_eq_true] at hwf
    obtain ⟨⟨hwfk, hwfv⟩, hwft⟩ := hwf
    simp only [canonicalMembers] at h
    cases hv : canonicalBytes v with
    | ok vb =>
      rw [hv] at h
      refine canonicalMembers_valid tl _ ob hwft ?_ h
      intro p hp
      rcases mem_insertMember hp with rfl | hp
      · refine ⟨strBytes_valid ?_, canonicalBytes_valid v vb hwfv hv⟩
        simp only [List.all_eq_true] at hwfk
        exact hwfk
      · exact hacc p hp
    | error e =>
      rw [hv] at h
      cases h

end

/-! ## The implemented escaping agrees with the (amended) spec rule -/

theorem escByte_eq_spec (c : Nat) : escByte c = escapeCharSpec c := by
  by_cases h34 : c = 34
  · subst h34; rfl
  by_cases h92 : c = 92
  · subst h92; rfl
  by_cases h8 : c = 8
  · subst h8; rfl
  by_cases h12 : c = 12
  · subst h12; rfl
  by_cases h10 : c = 10
  · subst h10; rfl
  by_cases h13 : c = 13
  · subst h13; rfl
  by_cases h9 : c = 9
  · subst h9; rfl
  by_cases hc : c < 32
  · simp [escByte, needsEscape, charEscapeOf, escapeCharSpec, escBytes,
      h34, h92, h8, h12, h10, h13, h9, hc]
  · simp [escByte, needsEscape, escapeCharSpec,
      h34, h92, h8, h12, h10, h13, h9, hc]

theorem escapeAll_eq_spec (s : List Nat) : escapeAll s = escapeSpecAll s := by
  induction s with
  | nil => rfl
  | cons c cs ih =>
    rw [show escapeAll (c :: cs) = escByte c ++ escapeAll cs from rfl,
      show escapeSpecAll (c :: cs) = escapeCharSpec c ++ escapeSpecAll cs
        from rfl, escByte_eq_spec, ih]

/-! ## Claim theorems -/

/-- C1: whenever `end_object` closes an object in a reachable formatter
state, the popped frame's members are emitted in the order of its member
map, which is strictly sorted by UTF-16 code-unit comparison of the keys'
original (pre-encoding) text; concretely, a key holding the
supplementary-plane character U+1F600 is emitted before a key holding the
BMP character U+E000 — the UTF-16 code-unit order — even though raw
encoded-byte comparison orders the two keys the other way around. -/
theorem c1_end_object_sorted_utf16 :
    (∀ evs st e fr, runEvents evs ⟨[], []⟩ = .ok st → st.frames = e :: fr →
      step st .endObject =
        .ok (emit ⟨fr, st.out⟩ (renderMembers e.object ++ [125])) ∧
      List.Pairwise (fun p q => keyLt p.1 q.1 = true) e.object) ∧
    (to_vec (.obj (.cons [0xE000] (.int 1) (.cons [0x1F600] (.int 2) .nil))) =
      .ok ([123] ++ strBytes [0x1F600] ++ [58, 50, 44] ++
        strBytes [0xE000] ++ [58, 49, 125]) ∧
     keyLt (strBytes [0x1F600]) (strBytes [0xE000]) = true ∧
     lexLt (strBytes [0xE000]) (strBytes [0x1F600]) = true) := by
  constructor
  · intro evs st e fr hr hf
    constructor
    · simp [step, hf]
    · exact sortedFrames_reachable hr e (hf ▸ List.mem_cons_self e fr)
  · exact ⟨rfl, by decide, by decide⟩

/-- C1 witness: a concrete reachable state holding an object with the two
keys U+E000 (inserted first) and U+1F600; closing it emits the U+1F600
member first, and the member map is pairwise sorted in UTF-16 order. -/
theorem c1_end_object_sorted_utf16_witness :
    step ⟨[⟨true, [], [], [([34, 240, 159, 152, 128, 34], [50]),
        ([34, 238, 128, 128, 34], [49])]⟩], [123]⟩ .endObject =
      .ok (emit ⟨[], [123]⟩
        (renderMembers [([34, 240, 159, 152, 128, 34], [50]),
          ([34, 238, 128, 128, 34], [49])] ++ [125])) ∧
    List.Pairwise (fun p q => keyLt p.1 q.1 = true)
      [([34, 240, 159, 152, 128, 34], [50]), ([34, 238, 128, 128, 34], [49])] :=
  c1_end_object_sorted_utf16.1
    [.beginObject, .beginObjectKey true, .beginString,
      .writeStringFragment [0xE000], .endString, .endObjectKey,
      .beginObjectValue, .writeInt 1, .endObjectValue,
      .beginObjectKey false, .beginString, .writeStringFragment [0x1F600],
      .endString, .endObjectKey, .beginObjectValue, .writeInt 2,
      .endObjectValue]
    ⟨[⟨true, [], [], [([34, 240, 159, 152, 128, 34], [50]),
      ([34, 238, 128, 128, 34], [49])]⟩], [123]⟩
    ⟨true, [], [], [([34, 240, 159, 152, 128, 34], [50]),
      ([34, 238, 128, 128, 34], [49])]⟩
    [] rfl rfl

/-- C2: a NaN or infinite float makes `write_float` fail at once with the
generated error — the event has no successor state, so no bytes of that
number reach any buffer or the output, the rest of the event stream is
never run, and the end-to-end encode of such a value returns the error. -/
theorem c2_nonfinite_rejected (st : EncState) (neg : Bool) (s : List Nat) :
    step st (.writeFloat ⟨neg, .nan, s⟩) = .error (.io ohNo) ∧
    step st (.writeFloat ⟨neg, .infinite, s⟩) = .error (.io ohNo) ∧
    (∀ evs, runEvents (.writeFloat ⟨neg, .nan, s⟩ :: evs) st =
        .error (.io ohNo) ∧
      runEvents (.writeFloat ⟨neg, .infinite, s⟩ :: evs) st =
        .error (.io ohNo)) ∧
    to_vec (.float ⟨neg, .nan, s⟩) = .error (.io ohNo) ∧
    to_vec (.float ⟨neg, .infinite, s⟩) = .error (.io ohNo) :=
  ⟨rfl, rfl, fun _ => ⟨rfl, rfl⟩, rfl, rfl⟩

/-- C3: the number-string write path — which the code's own `todo!`
message earmarks for `u128`/`i128` — panics (`todo!`) instead of emitting
the decimal digits; evaluated here at the decimal string of `u128::MAX`.
The 8- to 64-bit integer writers do emit plain decimal (contrast shown for
the value 12). -/
theorem c3_write_number_str_panics :
    step ⟨[], []⟩ (.writeNumberStr [51, 52, 48, 50, 56, 50, 51, 54, 54,
        57, 50, 48, 57, 51, 56, 52, 54, 51, 52, 54, 51, 51, 55, 52, 54,
        48, 55, 52, 51, 49, 55, 54, 56, 50, 49, 49, 52, 53, 53]) =
      .error (.panic "not yet implemented: Handle number str (u128/i128)") ∧
    step ⟨[], []⟩ (.writeInt 12) = .ok ⟨[], [49, 50]⟩ :=
  ⟨rfl, rfl⟩

/-- C4: encoding the object with members b:1 then a:2 yields exactly
the bytes of the text with a:2 before b:1, and encoding the object
z:(b:1,a:2), y:1 yields the bytes of y:1 then z:(a:2,b:1) — every
object's members emitted sorted by key, nested objects sorted
independently. -/
theorem c4_key_reordering :
    to_vec (.obj (.cons [98] (.int 1) (.cons [97] (.int 2) .nil))) =
      .ok [123, 34, 97, 34, 58, 50, 44, 34, 98, 34, 58, 49, 125] ∧
    to_vec (.obj (.cons [122]
        (.obj (.cons [98] (.int 1) (.cons [97] (.int 2) .nil)))
        (.cons [121] (.int 1) .nil))) =
      .ok [123, 34, 121, 34, 58, 49, 44, 34, 122, 34, 58,
        123, 34, 97, 34, 58, 50, 44, 34, 98, 34, 58, 49, 125, 125] :=
  ⟨rfl, rfl⟩

/-- C5: for finite floats `write_float` emits the single byte `0` for a
zero of either sign, and otherwise exactly the recorded ECMAScript
`Number::toString` shortest rendering; concretely, with the `ryu_js`
renderings of the values 1.0 (the single byte of "1") and 0.1 (the bytes
of "0.1"), the encoder outputs `1` and `0.1`. -/
theorem c5_finite_float_form (st : EncState) (neg : Bool) (s : List Nat) :
    step st (.writeFloat ⟨neg, .zero, s⟩) = .ok (emit st [48]) ∧
    step st (.writeFloat ⟨neg, .normal, s⟩) = .ok (emit st s) ∧
    step st (.writeFloat ⟨neg, .subnormal, s⟩) = .ok (emit st s) ∧
    to_vec (.float ⟨false, .zero, []⟩) = .ok [48] ∧
    to_vec (.float ⟨true, .zero, []⟩) = .ok [48] ∧
    to_vec (.float ⟨false, .normal, [49]⟩) = .ok [49] ∧
    to_vec (.float ⟨false, .normal, [48, 46, 49]⟩) = .ok [48, 46, 49] :=
  ⟨rfl, rfl, rfl, rfl, rfl, rfl, rfl⟩

/-- C6 counterexample: encoding the one-character string "/" leaves the
solidus unescaped — the output is the three bytes quote, solidus, quote,
not the four bytes of the claimed escape form. -/
theorem c6_solidus_unescaped :
    to_vec (.str [47]) = .ok [34, 47, 34] ∧
    [34, 47, 34] ≠ [34, 92, 47, 34] :=
  ⟨rfl, by decide⟩

/-- C6 amended: every string is serialized as a quote, per-character
bytes, and a quote, where each character passes through verbatim as UTF-8
unless escaped, and exactly these are escaped: quote as a backslash-quote
pair, backslash doubled, backspace, form feed, line feed, carriage return
and tab as their two-character escapes, and every other control character
(code point below 0x20) as a lowercase `u00XX` hex escape.  The solidus is
not escaped: the formatter's Solidus arm would render a backslash-solidus
pair but the string serializer never selects it. -/
theorem c6_escaping_characterized (st : EncState) (s : List Nat) :
    runEvents (stringEvents s) st =
      .ok (emit st (34 :: escapeSpecAll s ++ [34])) ∧
    (∀ c, charEscapeOf c ≠ .solidus) ∧
    (∀ st2, step st2 (.writeCharEscape .solidus) = .ok (emit st2 [92, 47])) := by
  refine ⟨?_, ?_, fun st2 => rfl⟩
  · rw [run_stringEvents,
      show strBytes s = 34 :: escapeAll s ++ [34] from rfl,
      escapeAll_eq_spec]
  · intro c
    unfold charEscapeOf
    split_ifs <;> simp

/-- C7: the three entry points produce identical canonical bytes —
`to_string` returns exactly `to_vec`'s bytes and `to_writer` appends
exactly those bytes to the stream — and for well-formed inputs the bytes
are the UTF-8 encoding of a sequence of Unicode scalar values, making the
unchecked bytes-to-string conversion in `to_string` sound. -/
theorem c7_entry_points_agree (v : JValue) (sink : List Nat)
    (hwf : wfValue v = true) :
    to_string v = to_vec v ∧
    to_writer v sink =
      (match to_vec v with
       | .ok bs => .ok (sink ++ bs)
       | .error e => .error e) ∧
    ∀ bs, to_vec v = .ok bs → Utf8Valid bs := by
  have hrw : ∀ s0, to_writer v s0 =
      (match canonicalBytes v with
       | .ok bs => .ok (s0 ++ bs)
       | .error e => .error e) := by
    intro s0
    rw [show to_writer v s0 =
        (match runEvents (serializeValue v) ⟨[], s0⟩ with
         | .ok st => .ok st.out
         | .error e => .error e) from rfl,
      run_serializeValue v ⟨[], s0⟩]
    cases hc : canonicalBytes v <;> simp [emit]
  refine ⟨rfl, ?_, ?_⟩
  · rw [hrw sink, show to_vec v = to_writer v [] from rfl, hrw []]
    cases hc : canonicalBytes v <;> simp
  · intro bs h
    rw [show to_vec v = to_writer v [] from rfl, hrw []] at h
    cases hc : canonicalBytes v with
    | ok bs1 =>
      rw [hc] at h
      simp only [List.nil_append, Except.ok.injEq] at h
      exact h ▸ canonicalBytes_valid v bs1 hwf hc
    | error e =>
      rw [hc] at h
      cases h

/-- C7 witness: the three entry points agree and produce valid UTF-8 on a
concrete well-formed object. -/
theorem c7_entry_points_agree_witness :
    wfValue (.obj (.cons [97] (.int 1) .nil)) = true ∧
    (to_string (.obj (.cons [97] (.int 1) .nil)) =
        to_vec (.obj (.cons [97] (.int 1) .nil)) ∧
      to_writer (.obj (.cons [97] (.int 1) .nil)) [32] =
        (match to_vec (.obj (.cons [97] (.int 1) .nil)) with
         | .ok bs => .ok ([32] ++ bs)
         | .error e => .error e) ∧
      ∀ bs, to_vec (.obj (.cons [97] (.int 1) .nil)) = .ok bs →
        Utf8Valid bs) :=
  ⟨by decide, c7_entry_points_agree (.obj (.cons [97] (.int 1) .nil)) [32]
    (by decide)⟩

/-- C8: an `end_object` or `end_object_value` event arriving with no open
frame on the stack returns the generated error instead of being silently
ignored. -/
theorem c8_unbalanced_scope (out : List Nat) :
    step ⟨[], out⟩ .endObject = .error (.io ohNo) ∧
    step ⟨[], out⟩ .endObjectValue = .error (.io ohNo) :=
  ⟨rfl, rfl⟩

/-- C9: after `end_object_value` on an open frame, both scratch buffers of
the top frame are empty and the just-finalized key maps to the
just-finalized value in the member map, overwriting any previously
inserted value for an identical key. -/
theorem c9_end_object_value (e : Entry) (fr : List Entry) (out : List Nat) :
    step ⟨e :: fr, out⟩ .endObjectValue =
      .ok ⟨⟨e.complete, [], [],
        insertMember e.object e.next_key e.next_val⟩ :: fr, out⟩ ∧
    lookupKey (insertMember e.object e.next_key e.next_val) e.next_key =
      some e.next_val :=
  ⟨rfl, lookupKey_insertMember e.object e.next_key e.next_val⟩

/-- C10: the failures the encoder generates itself — a non-finite float
and an unbalanced `end_object` or `end_object_value` — all return one and
the same error value, an I/O error of kind Other with message "oh no", so
a caller cannot tell them apart by inspecting the returned error. -/
theorem c10_indistinguishable_errors (st : EncState) (out : List Nat)
    (neg : Bool) (s1 s2 : List Nat) :
    ∃ err : Failure,
      step st (.writeFloat ⟨neg, .nan, s1⟩) = .error err ∧
      step st (.writeFloat ⟨neg, .infinite, s2⟩) = .error err ∧
      step ⟨[], out⟩ .endObject = .error err ∧
      step ⟨[], out⟩ .endObjectValue = .error err ∧
      err = .io ⟨.other, "oh no"⟩ :=
  ⟨.io ohNo, rfl, rfl, rfl, rfl, rfl⟩
